import Mathlib

/-!
Shallow embedding of the PicoRV lexer (src/src/Lexer.cpp).

The scanner reads the source line by line, extracts maximal runs of word
characters `[A-Za-z0-9_]` together with their 1-based start columns, classifies
each run (instruction set membership, register, immediate, label overlay,
error), and appends one end-of-line token per source line.  The token stream
is consumed FIFO through peek/pop.
-/

/-- Token categories, mirroring `enum class TokenType`. -/
inductive TokenType where
  | INSTRUCTION
  | REGISTER
  | IMMEDIATE
  | LABEL
  | END_OF_LINE
  | ERROR
deriving DecidableEq

/-- One classified lexical unit: category, lexeme, 1-based line and column. -/
structure Token where
  type : TokenType
  lexeme : List Char
  line : Nat
  column : Nat
deriving DecidableEq

/-- Word characters matched by the extraction regex `[a-zA-Z0-9_]+`. -/
def isWordChar (c : Char) : Bool :=
  ('a' ≤ c && c ≤ 'z') || ('A' ≤ c && c ≤ 'Z') || c.isDigit || c == '_'

/-- ASCII hexadecimal digit test, mirroring `std::isxdigit`. -/
def isHexDigit (c : Char) : Bool :=
  c.isDigit || ('a' ≤ c && c ≤ 'f') || ('A' ≤ c && c ≤ 'F')

/-- The register-number loop of `Lexer::tokenize` (Lexer.cpp:76-89): scan the
characters after the leading `x`, fail on a non-digit, accumulate the decimal
value left to right and fail as soon as it exceeds 31. -/
def regLoop : List Char → Nat → Bool
  | [], _ => true
  | c :: cs, acc =>
    if c.isDigit then
      if acc * 10 + (c.toNat - '0'.toNat) > 31 then false
      else regLoop cs (acc * 10 + (c.toNat - '0'.toNat))
    else false

/-- The immediate branch of `Lexer::tokenize` (Lexer.cpp:95-133): binary
`0b...`, else hexadecimal `0x...`, else all-decimal; a matched `0b`/`0x` head
with an invalid body yields ERROR without falling through. -/
def immediateCheck (str : List Char) : TokenType :=
  if 2 < str.length ∧ str.getD 0 ' ' = '0' ∧ str.getD 1 ' ' = 'b' then
    if (str.drop 2).all (fun c => c == '0' || c == '1') then TokenType.IMMEDIATE
    else TokenType.ERROR
  else if 2 < str.length ∧ str.getD 0 ' ' = '0' ∧ str.getD 1 ' ' = 'x' then
    if (str.drop 2).all isHexDigit then TokenType.IMMEDIATE
    else TokenType.ERROR
  else
    if str.all Char.isDigit then TokenType.IMMEDIATE
    else TokenType.ERROR

/-- The if/else-if classification chain of `Lexer::tokenize` before the label
pass: instruction-set membership, then register, then immediate. -/
def baseType (instrs : List (List Char)) (str : List Char) : TokenType :=
  if instrs.contains str then TokenType.INSTRUCTION
  else if 2 ≤ str.length ∧ str.getD 0 ' ' = 'x' then
    if regLoop (str.drop 1) 0 then TokenType.REGISTER else TokenType.ERROR
  else if 0 < str.length then immediateCheck str
  else TokenType.ERROR

/-- The label pass of `Lexer::tokenize` (Lexer.cpp:135-147): runs only when the
type is still ERROR, requires a final `:` and no underscore before it. -/
def labelCheck (base : TokenType) (str : List Char) : TokenType :=
  if base = TokenType.ERROR ∧ 0 < str.length ∧ str.getLast? = some ':' then
    if (str.take (str.length - 1)).any (fun c => c == '_') then base
    else TokenType.LABEL
  else base

/-- Classification of one lexeme, as `Lexer::tokenize` computes `type`. -/
def tokenizeType (instrs : List (List Char)) (str : List Char) : TokenType :=
  labelCheck (baseType instrs str) str

/-- `Lexer::tokenize`: build the token for one candidate lexeme. -/
def tokenize (instrs : List (List Char)) (str : List Char) (line column : Nat) :
    Token :=
  { type := tokenizeType instrs str, lexeme := str, line := line, column := column }

/-- Maximal word-character run extraction, as the `sregex_iterator` loop over
`[a-zA-Z0-9_]+` produces matches: `i` counts consumed characters, the
accumulator holds the reversed run in progress and its 1-based start column. -/
def runsAux : List Char → Nat → Option (List Char × Nat) → List (List Char × Nat)
  | [], _, none => []
  | [], _, some (run, p) => [(run.reverse, p)]
  | c :: cs, i, none =>
    if isWordChar c then runsAux cs (i + 1) (some ([c], i + 1))
    else runsAux cs (i + 1) none
  | c :: cs, i, some (run, p) =>
    if isWordChar c then runsAux cs (i + 1) (some (c :: run, p))
    else (run.reverse, p) :: runsAux cs (i + 1) none

/-- All maximal word-character runs of a line with 1-based start columns. -/
def extractRuns (l : List Char) : List (List Char × Nat) :=
  runsAux l 0 none

/-- The per-line token loop (Lexer.cpp:28-44): for each run set the current
column to the run's start, tokenize, append; returns the tokens and the final
value of the column state. -/
def lineTokens (instrs : List (List Char)) (lineNo : Nat) :
    List (List Char × Nat) → Nat → List Token × Nat
  | [], col => ([], col)
  | (r, p) :: rest, _ =>
    let rec_result := lineTokens instrs lineNo rest p
    (tokenize instrs r lineNo p :: rec_result.1, rec_result.2)

/-- One line's contribution to the stream: its run tokens followed by the
END_OF_LINE token carrying the current column state (Lexer.cpp:46-47). -/
def lineOutput (instrs : List (List Char)) (lineNo col : Nat) (l : List Char) :
    List Token :=
  let step := lineTokens instrs lineNo (extractRuns l) col
  step.1 ++ [{ type := TokenType.END_OF_LINE, lexeme := ['\n'], line := lineNo,
               column := step.2 }]

/-- The getline loop of the constructor (Lexer.cpp:23-52): process each line,
then advance the line counter and reset the column state to 1. -/
def scanAux (instrs : List (List Char)) : Nat → Nat → List (List Char) → List Token
  | _, _, [] => []
  | lineNo, col, l :: ls =>
    lineOutput instrs lineNo col l ++ scanAux instrs (lineNo + 1) 1 ls

/-- Full scan of a source, starting at line 1, column 1 (Lexer.cpp:14). -/
def lexerScan (instrs : List (List Char)) (lines : List (List Char)) : List Token :=
  scanAux instrs 1 1 lines

/-- `Lexer::Lexer`: check that the source is readable; on failure throw and
leave the referenced token deque untouched, otherwise append the scanned
tokens to it (Lexer.cpp:13-53). -/
def lexerConstruct (isOpen : Bool) (instrs : List (List Char))
    (lines : List (List Char)) (parsedFile : List Token) :
    Except String Unit × List Token :=
  if isOpen then (Except.ok (), parsedFile ++ lexerScan instrs lines)
  else (Except.error ("Source file not found!"), parsedFile)

/-- `Lexer::hasMoreTokens`. -/
def hasMoreTokens (parsedFile : List Token) : Bool :=
  !parsedFile.isEmpty

/-- `Lexer::peekNextToken`: head of the stream, or the empty-stream error. -/
def peekNextToken : List Token → Except String Token
  | [] => Except.error ("No tokens available to peek.")
  | t :: _ => Except.ok t

/-- `Lexer::getNextToken`: pop the head; on the empty stream the error is
raised before anything is removed, so the stream is returned unchanged. -/
def getNextToken : List Token → Except String Token × List Token
  | [] => (Except.error ("No tokens available."), [])
  | t :: rest => (Except.ok t, rest)

/-- Spec-side count of maximal word-character runs: a run is counted at each
word character whose predecessor is absent or not a word character. -/
def countRunsFrom : List Char → Bool → Nat
  | [], _ => 0
  | c :: cs, prev =>
    if isWordChar c then (if prev then 0 else 1) + countRunsFrom cs true
    else countRunsFrom cs false

/-- Spec-side number of maximal word-character runs in a line. -/
def countMaximalRuns (l : List Char) : Nat :=
  countRunsFrom l false

/-- Spec-side decimal value of a digit string, read left to right. -/
def digitsVal (cs : List Char) : Nat :=
  cs.foldl (fun a c => a * 10 + (c.toNat - '0'.toNat)) 0

lemma labelCheck_of_ne_error (base : TokenType) (str : List Char)
    (h : base ≠ TokenType.ERROR) : labelCheck base str = base := by
  unfold labelCheck
  split
  · rename_i hc
    exact absurd hc.1 h
  · rfl

lemma immediateCheck_cases (str : List Char) :
    immediateCheck str = TokenType.IMMEDIATE ∨ immediateCheck str = TokenType.ERROR := by
  unfold immediateCheck
  split
  · split
    · exact Or.inl rfl
    · exact Or.inr rfl
  · split
    · split
      · exact Or.inl rfl
      · exact Or.inr rfl
    · split
      · exact Or.inl rfl
      · exact Or.inr rfl

lemma baseType_cases (instrs : List (List Char)) (str : List Char) :
    baseType instrs str = TokenType.INSTRUCTION ∨
    baseType instrs str = TokenType.REGISTER ∨
    baseType instrs str = TokenType.IMMEDIATE ∨
    baseType instrs str = TokenType.ERROR := by
  unfold baseType
  split
  · exact Or.inl rfl
  · split
    · split
      · exact Or.inr (Or.inl rfl)
      · exact Or.inr (Or.inr (Or.inr rfl))
    · split
      · rcases immediateCheck_cases str with h | h
        · exact Or.inr (Or.inr (Or.inl h))
        · exact Or.inr (Or.inr (Or.inr h))
      · exact Or.inr (Or.inr (Or.inr rfl))

lemma tokenizeType_cases (instrs : List (List Char)) (str : List Char) :
    tokenizeType instrs str = baseType instrs str ∨
    tokenizeType instrs str = TokenType.LABEL := by
  unfold tokenizeType labelCheck
  split
  · split
    · exact Or.inl rfl
    · exact Or.inr rfl
  · exact Or.inl rfl

lemma tokenizeType_ne_eol (instrs : List (List Char)) (str : List Char) :
    tokenizeType instrs str ≠ TokenType.END_OF_LINE := by
  rcases tokenizeType_cases instrs str with h | h
  · rw [h]
    rcases baseType_cases instrs str with hb | hb | hb | hb <;> simp [hb]
  · simp [h]

/-- C9: constructing the scanner on an unreadable source fails with the
initialization error and leaves the token stream exactly as it was. -/
theorem construct_unreadable_source :
    ∀ (instrs lines : List (List Char)) (parsedFile : List Token),
    lexerConstruct false instrs lines parsedFile =
      (Except.error ("Source file not found!"), parsedFile) := by
  intro instrs lines parsedFile
  rfl

/-- C4: instruction-set membership always classifies as Instruction, ahead of
every other rule; an instruction literally named x5 beats the register rule. -/
theorem instruction_precedence :
    (∀ (instrs : List (List Char)) (str : List Char), instrs.contains str = true →
      tokenizeType instrs str = TokenType.INSTRUCTION) ∧
    tokenizeType [("x5".toList)] ("x5".toList) = TokenType.INSTRUCTION := by
  constructor
  · intro instrs str h
    have hb : baseType instrs str = TokenType.INSTRUCTION := by
      unfold baseType
      rw [h]
      rfl
    unfold tokenizeType
    rw [hb, labelCheck_of_ne_error]
    simp
  · decide

theorem instruction_precedence_witness :
    tokenizeType [("add".toList)] ("add".toList) = TokenType.INSTRUCTION :=
  instruction_precedence.1 [("add".toList)] ("add".toList) (by decide)

/-- C5: scanning the line `add x1 x2 x3` with instruction set containing add
yields exactly Instruction, three Registers and an EndOfLine at the stated
lines and columns. -/
theorem scan_add_line :
    lexerScan [("add".toList)] [("add x1 x2 x3".toList)] =
      [⟨TokenType.INSTRUCTION, "add".toList, 1, 1⟩,
       ⟨TokenType.REGISTER, "x1".toList, 1, 5⟩,
       ⟨TokenType.REGISTER, "x2".toList, 1, 8⟩,
       ⟨TokenType.REGISTER, "x3".toList, 1, 11⟩,
       ⟨TokenType.END_OF_LINE, ['\n'], 1, 11⟩] := by
  decide

/-- C8: peek and pop fail with the empty-stream error exactly on the empty
stream; otherwise peek returns the head without removing it and pop removes
and returns the head; a failing pop leaves the stream unchanged. -/
theorem peek_pop_contract :
    ∀ ts : List Token,
    (peekNextToken ts = Except.error ("No tokens available to peek.") ↔ ts = []) ∧
    ((getNextToken ts).1 = Except.error ("No tokens available.") ↔ ts = []) ∧
    (∀ t rest, ts = t :: rest →
      peekNextToken ts = Except.ok t ∧ getNextToken ts = (Except.ok t, rest)) ∧
    ((getNextToken ts).1.isOk = false → (getNextToken ts).2 = ts) := by
  intro ts
  cases ts with
  | nil =>
    refine ⟨by simp [peekNextToken], by simp [getNextToken], ?_, ?_⟩
    · intro t rest h
      cases h
    · intro _
      rfl
  | cons t rest =>
    refine ⟨by simp [peekNextToken], by simp [getNextToken], ?_, ?_⟩
    · intro u urest h
      cases h
      exact ⟨rfl, rfl⟩
    · intro h
      simp [getNextToken, Except.isOk, Except.toBool] at h

theorem peek_pop_contract_witness :
    peekNextToken [] = Except.error ("No tokens available to peek.") ∧
    peekNextToken [⟨TokenType.ERROR, [], 1, 1⟩] =
      Except.ok ⟨TokenType.ERROR, [], 1, 1⟩ ∧
    getNextToken [⟨TokenType.ERROR, [], 1, 1⟩] =
      (Except.ok ⟨TokenType.ERROR, [], 1, 1⟩, []) :=
  ⟨(peek_pop_contract []).1.mpr rfl,
   ((peek_pop_contract [⟨TokenType.ERROR, [], 1, 1⟩]).2.2.1 _ [] rfl).1,
   ((peek_pop_contract [⟨TokenType.ERROR, [], 1, 1⟩]).2.2.1 _ [] rfl).2⟩

lemma foldl_digits_le (cs : List Char) :
    ∀ a : Nat, a ≤ cs.foldl (fun x c => x * 10 + (c.toNat - '0'.toNat)) a := by
  induction cs with
  | nil => intro a; exact Nat.le_refl a
  | cons c cs ih =>
    intro a
    have h1 : a ≤ a * 10 + (c.toNat - '0'.toNat) := by omega
    exact Nat.le_trans h1 (ih (a * 10 + (c.toNat - '0'.toNat)))

lemma regLoop_iff (cs : List Char) :
    ∀ acc : Nat, acc ≤ 31 →
    (regLoop cs acc = true ↔
      cs.all Char.isDigit = true ∧
      cs.foldl (fun x c => x * 10 + (c.toNat - '0'.toNat)) acc ≤ 31) := by
  induction cs with
  | nil =>
    intro acc h
    simp [regLoop, h]
  | cons c cs ih =>
    intro acc h
    simp only [regLoop, List.all_cons, List.foldl_cons, Bool.and_eq_true]
    by_cases hd : c.isDigit
    · simp only [hd, if_true, true_and]
      by_cases hgt : acc * 10 + (c.toNat - '0'.toNat) > 31
      · simp only [hgt, if_true]
        constructor
        · intro hfalse
          cases hfalse
        · rintro ⟨-, hle⟩
          have := foldl_digits_le cs (acc * 10 + (c.toNat - '0'.toNat))
          omega
      · simp only [hgt, if_false]
        exact ih _ (by omega)
    · simp [hd]

lemma immediateCheck_ne_register (str : List Char) :
    immediateCheck str ≠ TokenType.REGISTER := by
  rcases immediateCheck_cases str with h | h <;> simp [h]

lemma tokenizeType_eq_iff_baseType (instrs : List (List Char)) (str : List Char)
    (ty : TokenType) (h1 : ty ≠ TokenType.ERROR) (h2 : ty ≠ TokenType.LABEL) :
    tokenizeType instrs str = ty ↔ baseType instrs str = ty := by
  constructor
  · intro h
    rcases tokenizeType_cases instrs str with hc | hc
    · rw [← hc]
      exact h
    · exact absurd (h.symm.trans hc) h2
  · intro h
    unfold tokenizeType
    rw [h, labelCheck_of_ne_error _ _ h1]

/-- C2: outside the instruction set, a lexeme is a Register exactly when it is
`x` followed by at least one decimal digit whose value, read left to right, is
at most 31; leading zeros accepted, x32 is an Error, x alone is no Register. -/
theorem register_classification :
    (∀ (instrs : List (List Char)) (str : List Char), instrs.contains str = false →
      (tokenizeType instrs str = TokenType.REGISTER ↔
        2 ≤ str.length ∧ str.getD 0 ' ' = 'x' ∧
        (str.drop 1).all Char.isDigit = true ∧ digitsVal (str.drop 1) ≤ 31)) ∧
    tokenizeType [] ("x01".toList) = TokenType.REGISTER ∧
    tokenizeType [] ("x0".toList) = TokenType.REGISTER ∧
    tokenizeType [] ("x31".toList) = TokenType.REGISTER ∧
    tokenizeType [] ("x32".toList) = TokenType.ERROR ∧
    tokenizeType [] ("x".toList) ≠ TokenType.REGISTER := by
  refine ⟨?_, by decide, by decide, by decide, by decide, by decide⟩
  intro instrs str h
  rw [tokenizeType_eq_iff_baseType instrs str TokenType.REGISTER (by simp) (by simp)]
  unfold baseType
  rw [h]
  simp only [Bool.false_eq_true, if_false]
  by_cases hx : 2 ≤ str.length ∧ str.getD 0 ' ' = 'x'
  · rw [if_pos hx]
    have hreg := regLoop_iff (str.drop 1) 0 (by omega)
    constructor
    · intro hr
      have hloop : regLoop (str.drop 1) 0 = true := by
        by_cases hl : regLoop (str.drop 1) 0 = true
        · exact hl
        · rw [if_neg hl] at hr
          cases hr
      rcases hreg.mp hloop with ⟨hall, hval⟩
      exact ⟨hx.1, hx.2, hall, hval⟩
    · rintro ⟨-, -, hall, hval⟩
      rw [if_pos (hreg.mpr ⟨hall, hval⟩)]
  · rw [if_neg hx]
    constructor
    · intro hr
      by_cases h0 : 0 < str.length
      · rw [if_pos h0] at hr
        exact absurd hr (immediateCheck_ne_register str)
      · rw [if_neg h0] at hr
        cases hr
    · rintro ⟨hlen, hhead, -, -⟩
      exact absurd ⟨hlen, hhead⟩ hx

theorem register_classification_witness :
    tokenizeType [] ("x15".toList) = TokenType.REGISTER :=
  (register_classification.1 [] ("x15".toList) (by decide)).mpr (by decide)

lemma all_getD (p : Char → Bool) (l : List Char) (h : l.all p = true) (i : Nat)
    (hi : i < l.length) (d : Char) : p (l.getD i d) = true := by
  rw [List.getD_eq_getElem l d hi]
  exact List.all_eq_true.mp h _ (List.getElem_mem hi)

/-- C3: a lexeme that reaches the immediate rule is an Immediate exactly when
it is a well-formed binary literal, else a well-formed hexadecimal literal,
else all-decimal; a matched 0b/0x head with a bad body never falls back to the
decimal sub-rule. -/
theorem immediate_classification :
    (∀ (instrs : List (List Char)) (str : List Char),
      instrs.contains str = false →
      ¬(2 ≤ str.length ∧ str.getD 0 ' ' = 'x') →
      0 < str.length →
      (tokenizeType instrs str = TokenType.IMMEDIATE ↔
        (2 < str.length ∧ str.getD 0 ' ' = '0' ∧ str.getD 1 ' ' = 'b' ∧
          (str.drop 2).all (fun c => c == '0' || c == '1') = true) ∨
        (2 < str.length ∧ str.getD 0 ' ' = '0' ∧ str.getD 1 ' ' = 'x' ∧
          (str.drop 2).all isHexDigit = true) ∨
        str.all Char.isDigit = true)) ∧
    tokenizeType [] ("0b101".toList) = TokenType.IMMEDIATE ∧
    tokenizeType [] ("0xFF".toList) = TokenType.IMMEDIATE ∧
    tokenizeType [] ("42".toList) = TokenType.IMMEDIATE ∧
    tokenizeType [] ("007".toList) = TokenType.IMMEDIATE ∧
    tokenizeType [] ("0b102".toList) = TokenType.ERROR ∧
    tokenizeType [] ("0xFG".toList) = TokenType.ERROR ∧
    tokenizeType [] ("0b".toList) = TokenType.ERROR ∧
    tokenizeType [] ("0x".toList) = TokenType.ERROR := by
  refine ⟨?_, by decide, by decide, by decide, by decide, by decide, by decide,
    by decide, by decide⟩
  intro instrs str hcont hx h0
  rw [tokenizeType_eq_iff_baseType instrs str TokenType.IMMEDIATE (by simp) (by simp)]
  unfold baseType
  rw [hcont]
  simp only [Bool.false_eq_true, if_false]
  rw [if_neg hx, if_pos h0]
  unfold immediateCheck
  by_cases hb : 2 < str.length ∧ str.getD 0 ' ' = '0' ∧ str.getD 1 ' ' = 'b'
  · rw [if_pos hb]
    have hnd : ¬str.all Char.isDigit = true := by
      intro hall
      have hdig := all_getD Char.isDigit str hall 1 (by omega) ' '
      rw [hb.2.2] at hdig
      exact absurd hdig (by decide)
    by_cases hbody : (str.drop 2).all (fun c => c == '0' || c == '1') = true
    · rw [if_pos hbody]
      exact iff_of_true rfl (Or.inl ⟨hb.1, hb.2.1, hb.2.2, hbody⟩)
    · rw [if_neg hbody]
      refine iff_of_false (by simp) ?_
      rintro (⟨-, -, -, hc⟩ | ⟨-, -, hc, -⟩ | hc)
      · exact hbody hc
      · rw [hb.2.2] at hc
        exact absurd hc (by decide)
      · exact hnd hc
  · rw [if_neg hb]
    by_cases hh : 2 < str.length ∧ str.getD 0 ' ' = '0' ∧ str.getD 1 ' ' = 'x'
    · rw [if_pos hh]
      have hnd : ¬str.all Char.isDigit = true := by
        intro hall
        have hdig := all_getD Char.isDigit str hall 1 (by omega) ' '
        rw [hh.2.2] at hdig
        exact absurd hdig (by decide)
      by_cases hbody : (str.drop 2).all isHexDigit = true
      · rw [if_pos hbody]
        exact iff_of_true rfl (Or.inr (Or.inl ⟨hh.1, hh.2.1, hh.2.2, hbody⟩))
      · rw [if_neg hbody]
        refine iff_of_false (by simp) ?_
        rintro (⟨-, -, hc, -⟩ | ⟨-, -, -, hc⟩ | hc)
        · rw [hh.2.2] at hc
          exact absurd hc (by decide)
        · exact hbody hc
        · exact hnd hc
    · rw [if_neg hh]
      by_cases hd : str.all Char.isDigit = true
      · rw [if_pos hd]
        exact iff_of_true rfl (Or.inr (Or.inr hd))
      · rw [if_neg hd]
        refine iff_of_false (by simp) ?_
        rintro (⟨h1, h2, h3, -⟩ | ⟨h1, h2, h3, -⟩ | hc)
        · exact hb ⟨h1, h2, h3⟩
        · exact hh ⟨h1, h2, h3⟩
        · exact hd hc

theorem immediate_classification_witness :
    tokenizeType [] ("0b11".toList) = TokenType.IMMEDIATE :=
  (immediate_classification.1 [] ("0b11".toList) (by decide) (by decide)
    (by decide)).mpr (Or.inl (by refine ⟨by decide, by decide, by decide, by decide⟩))

lemma getD_of_drop (c : Char) (cs : List Char) :
    ∀ (l : List Char) (i : Nat), l.drop i = c :: cs → l.getD i ' ' = c := by
  intro l
  induction l with
  | nil =>
    intro i h
    simp at h
  | cons x xs ih =>
    intro i h
    cases i with
    | zero =>
      simp at h
      simp [h.1]
    | succ j =>
      simp only [List.drop_succ_cons] at h
      simpa using ih j h

lemma drop_succ_of_drop (c : Char) (cs : List Char) :
    ∀ (l : List Char) (i : Nat), l.drop i = c :: cs → l.drop (i + 1) = cs := by
  intro l
  induction l with
  | nil =>
    intro i h
    simp at h
  | cons x xs ih =>
    intro i h
    cases i with
    | zero =>
      simp at h
      simp [h.2]
    | succ j =>
      simp only [List.drop_succ_cons] at h ⊢
      exact ih j h

lemma takeWhile_append_all (p : Char → Bool) (xs ys : List Char)
    (h : xs.all p = true) : (xs ++ ys).takeWhile p = xs ++ ys.takeWhile p :=
  List.takeWhile_append_of_pos (by simpa [List.all_eq_true] using h)

/-- The invariant carried by `runsAux`: with `i` characters of the line `l`
consumed, either no run is in progress and the previous character (if any) is
not a word character, or the reversed run in progress starts at column `p`,
spans exactly up to `i`, and is preceded by a non-word character or the line
start. -/
def accInvariant (l : List Char) (i : Nat) : Option (List Char × Nat) → Prop
  | none => i = 0 ∨ isWordChar (l.getD (i - 1) ' ') = false
  | some (run, p) =>
    1 ≤ p ∧ p - 1 + run.length = i ∧ l.drop (p - 1) = run.reverse ++ l.drop i ∧
    run ≠ [] ∧ run.all isWordChar = true ∧
    (p = 1 ∨ isWordChar (l.getD (p - 2) ' ') = false)

lemma runsAux_word :
    ∀ (s : List Char) (i : Nat) (acc : Option (List Char × Nat)),
    (∀ run p, acc = some (run, p) → run ≠ [] ∧ run.all isWordChar = true) →
    ∀ r q, (r, q) ∈ runsAux s i acc → r ≠ [] ∧ r.all isWordChar = true := by
  intro s
  induction s with
  | nil =>
    intro i acc hacc r q hmem
    cases acc with
    | none => simp [runsAux] at hmem
    | some rp =>
      obtain ⟨run, p⟩ := rp
      simp only [runsAux, List.mem_singleton, Prod.mk.injEq] at hmem
      obtain ⟨hr, -⟩ := hmem
      obtain ⟨hne, hall⟩ := hacc run p rfl
      subst hr
      refine ⟨by simpa using hne, by simpa [List.all_eq_true] using
        (List.all_eq_true.mp hall)⟩
  | cons c cs ih =>
    intro i acc hacc r q hmem
    cases acc with
    | none =>
      rw [runsAux] at hmem
      by_cases hw : isWordChar c = true
      · rw [if_pos hw] at hmem
        refine ih (i + 1) _ ?_ r q hmem
        intro run p hrp
        cases hrp
        exact ⟨by simp, by simp [hw]⟩
      · rw [if_neg hw] at hmem
        exact ih (i + 1) none (by intro run p h; cases h) r q hmem
    | some rp =>
      obtain ⟨run, p⟩ := rp
      rw [runsAux] at hmem
      obtain ⟨hne, hall⟩ := hacc run p rfl
      by_cases hw : isWordChar c = true
      · rw [if_pos hw] at hmem
        refine ih (i + 1) _ ?_ r q hmem
        intro run2 p2 hrp
        cases hrp
        exact ⟨by simp, by simp [hw, List.all_eq_true] at hall ⊢; exact hall⟩
      · rw [if_neg hw] at hmem
        rcases List.mem_cons.mp hmem with heq | hrec
        · injection heq with h1 h2
          subst h1
          refine ⟨by simpa using hne, ?_⟩
          simp only [List.all_reverse]
          exact hall
        · exact ih (i + 1) none (by intro run2 p2 h; cases h) r q hrec

lemma runsAux_pos (l : List Char) :
    ∀ (s : List Char) (i : Nat) (acc : Option (List Char × Nat)),
    l.drop i = s → accInvariant l i acc →
    ∀ r q, (r, q) ∈ runsAux s i acc →
      1 ≤ q ∧ (l.drop (q - 1)).takeWhile isWordChar = r ∧
      (q = 1 ∨ isWordChar (l.getD (q - 2) ' ') = false) := by
  intro s
  induction s with
  | nil =>
    intro i acc hdrop hinv r q hmem
    cases acc with
    | none => simp [runsAux] at hmem
    | some rp =>
      obtain ⟨run, p⟩ := rp
      simp only [runsAux, List.mem_singleton, Prod.mk.injEq] at hmem
      obtain ⟨hr, hq⟩ := hmem
      subst hr
      subst hq
      obtain ⟨hp1, hlen, hdec, hne, hall, hmax⟩ := hinv
      refine ⟨hp1, ?_, hmax⟩
      rw [hdec, hdrop, List.append_nil]
      exact List.takeWhile_eq_self_iff.mpr
        (by simpa [List.all_eq_true] using hall)
  | cons c cs ih =>
    intro i acc hdrop hinv r q hmem
    have hgd : l.getD i ' ' = c := getD_of_drop c cs l i hdrop
    have hds : l.drop (i + 1) = cs := drop_succ_of_drop c cs l i hdrop
    cases acc with
    | none =>
      rw [runsAux] at hmem
      by_cases hw : isWordChar c = true
      · rw [if_pos hw] at hmem
        refine ih (i + 1) (some ([c], i + 1)) hds ?_ r q hmem
        refine ⟨by omega, by simp, ?_, by simp, by simp [hw], ?_⟩
        · simp only [Nat.add_sub_cancel]
          rw [hdrop, hds]
          simp
        · rcases hinv with hz | hnw
          · left
            omega
          · right
            have harith : i + 1 - 2 = i - 1 := by omega
            rw [harith]
            exact hnw
      · rw [if_neg hw] at hmem
        refine ih (i + 1) none hds ?_ r q hmem
        right
        simp only [Nat.add_sub_cancel, hgd]
        simpa using hw
    | some rp =>
      obtain ⟨run, p⟩ := rp
      rw [runsAux] at hmem
      obtain ⟨hp1, hlen, hdec, hne, hall, hmax⟩ := hinv
      by_cases hw : isWordChar c = true
      · rw [if_pos hw] at hmem
        refine ih (i + 1) (some (c :: run, p)) hds ?_ r q hmem
        refine ⟨hp1, by simp only [List.length_cons]; omega, ?_, by simp, ?_, hmax⟩
        · rw [hdec, hdrop, hds]
          simp
        · simp only [List.all_cons, Bool.and_eq_true]
          exact ⟨hw, hall⟩
      · rw [if_neg hw] at hmem
        rcases List.mem_cons.mp hmem with heq | hrec
        · injection heq with h1 h2
          subst h1
          subst h2
          refine ⟨hp1, ?_, hmax⟩
          rw [hdec, hdrop]
          rw [takeWhile_append_all _ _ _ (by simpa using hall)]
          simp [List.takeWhile_cons, hw]
        · refine ih (i + 1) none hds ?_ r q hrec
          right
          simp only [Nat.add_sub_cancel, hgd]
          simpa using hw

lemma runsAux_length :
    ∀ (s : List Char) (i : Nat) (acc : Option (List Char × Nat)),
    (runsAux s i acc).length =
      countRunsFrom s acc.isSome + (if acc.isSome then 1 else 0) := by
  intro s
  induction s with
  | nil =>
    intro i acc
    cases acc with
    | none => simp [runsAux, countRunsFrom]
    | some rp =>
      obtain ⟨run, p⟩ := rp
      simp [runsAux, countRunsFrom]
  | cons c cs ih =>
    intro i acc
    cases acc with
    | none =>
      by_cases hw : isWordChar c = true
      · simp only [runsAux, if_pos hw, countRunsFrom, Option.isSome_none]
        rw [ih (i + 1) (some ([c], i + 1))]
        simp
        omega
      · simp only [runsAux, if_neg hw, countRunsFrom, Option.isSome_none]
        rw [ih (i + 1) none]
        simp [hw]
    | some rp =>
      obtain ⟨run, p⟩ := rp
      by_cases hw : isWordChar c = true
      · simp only [runsAux, if_pos hw, countRunsFrom, Option.isSome_some]
        rw [ih (i + 1) (some (c :: run, p))]
        simp [hw]
      · simp only [runsAux, if_neg hw, countRunsFrom, Option.isSome_some]
        rw [List.length_cons, ih (i + 1) none]
        simp [hw]

lemma extractRuns_length (l : List Char) :
    (extractRuns l).length = countMaximalRuns l := by
  unfold extractRuns countMaximalRuns
  rw [runsAux_length l 0 none]
  simp

lemma lineTokens_fst (instrs : List (List Char)) (lineNo : Nat) :
    ∀ (runs : List (List Char × Nat)) (col : Nat),
    (lineTokens instrs lineNo runs col).1 =
      runs.map (fun rq => tokenize instrs rq.1 lineNo rq.2) := by
  intro runs
  induction runs with
  | nil =>
    intro col
    rfl
  | cons rq rest ih =>
    intro col
    obtain ⟨r, p⟩ := rq
    simp [lineTokens, ih p]

lemma lineTokens_snd (instrs : List (List Char)) (lineNo : Nat) :
    ∀ (runs : List (List Char × Nat)) (col : Nat),
    (lineTokens instrs lineNo runs col).2 =
      ((runs.getLast?).map Prod.snd).getD col := by
  intro runs
  induction runs with
  | nil =>
    intro col
    rfl
  | cons rq rest ih =>
    intro col
    obtain ⟨r, p⟩ := rq
    cases rest with
    | nil => simp [lineTokens]
    | cons rq2 rest2 =>
      have hsome : ((rq2 :: rest2) : List (List Char × Nat)).getLast?.isSome := by
        simp [List.getLast?_isSome]
      obtain ⟨last, hlast⟩ := Option.isSome_iff_exists.mp hsome
      have hstep : (lineTokens instrs lineNo ((r, p) :: rq2 :: rest2) col).2 =
          (lineTokens instrs lineNo (rq2 :: rest2) p).2 := rfl
      rw [hstep, ih p, List.getLast?_cons_cons, hlast]
      simp

lemma scanAux_decompose (instrs : List (List Char)) :
    ∀ (ls : List (List Char)) (n : Nat),
    scanAux instrs n 1 ls =
      (List.range ls.length).flatMap
        (fun j => lineOutput instrs (j + n) 1 (ls.getD j [])) := by
  intro ls
  induction ls with
  | nil =>
    intro n
    simp [scanAux]
  | cons l rest ih =>
    intro n
    rw [scanAux, ih (n + 1), List.length_cons, List.range_succ_eq_map,
      List.flatMap_cons, List.flatMap_map]
    simp only [Nat.zero_add, List.getD_cons_succ, Nat.succ_eq_add_one,
      List.getD_cons_zero]
    have harith : ∀ j : Nat, j + (n + 1) = j + 1 + n := by omega
    simp only [harith]

lemma lexerScan_decompose (instrs : List (List Char)) (lines : List (List Char)) :
    lexerScan instrs lines =
      (List.range lines.length).flatMap
        (fun j => lineOutput instrs (j + 1) 1 (lines.getD j [])) := by
  unfold lexerScan
  exact scanAux_decompose instrs lines 1

lemma baseType_ne_label (instrs : List (List Char)) (str : List Char) :
    baseType instrs str ≠ TokenType.LABEL := by
  rcases baseType_cases instrs str with h | h | h | h <;> simp [h]

lemma tokenizeType_label_colon (instrs : List (List Char)) (str : List Char)
    (h : tokenizeType instrs str = TokenType.LABEL) :
    str.getLast? = some ':' := by
  unfold tokenizeType labelCheck at h
  by_cases hc : baseType instrs str = TokenType.ERROR ∧ 0 < str.length ∧
      str.getLast? = some ':'
  · exact hc.2.2
  · rw [if_neg hc] at h
    exact absurd h (baseType_ne_label instrs str)

lemma lineOutput_types (instrs : List (List Char)) (lineNo col : Nat)
    (l : List Char) (t : Token) (h : t ∈ lineOutput instrs lineNo col l) :
    t.type = TokenType.END_OF_LINE ∨
    ∃ rq ∈ extractRuns l, t.type = tokenizeType instrs rq.1 := by
  simp only [lineOutput] at h
  rcases List.mem_append.mp h with h1 | h2
  · rw [lineTokens_fst] at h1
    rcases List.mem_map.mp h1 with ⟨rq, hrq, heq⟩
    right
    refine ⟨rq, hrq, ?_⟩
    rw [← heq]
    rfl
  · left
    rw [List.mem_singleton.mp h2]

lemma scanAux_types (instrs : List (List Char)) :
    ∀ (ls : List (List Char)) (n c : Nat) (t : Token), t ∈ scanAux instrs n c ls →
    t.type = TokenType.END_OF_LINE ∨
    ∃ l ∈ ls, ∃ rq ∈ extractRuns l, t.type = tokenizeType instrs rq.1 := by
  intro ls
  induction ls with
  | nil =>
    intro n c t h
    simp [scanAux] at h
  | cons l rest ih =>
    intro n c t h
    rw [scanAux] at h
    rcases List.mem_append.mp h with h1 | h2
    · rcases lineOutput_types instrs n c l t h1 with heol | ⟨rq, hrq, hty⟩
      · exact Or.inl heol
      · exact Or.inr ⟨l, List.mem_cons_self l rest, rq, hrq, hty⟩
    · rcases ih (n + 1) 1 t h2 with heol | ⟨l2, hl2, rq, hrq, hty⟩
      · exact Or.inl heol
      · exact Or.inr ⟨l2, List.mem_cons_of_mem l hl2, rq, hrq, hty⟩

/-- C1: the scanner never emits a Label token: extracted runs consist of word
characters only, so no candidate lexeme ends in the colon the label rule
requires; the line `loop:` yields an Error token with lexeme loop. -/
theorem label_unreachable :
    (∀ (instrs lines : List (List Char)) (t : Token), t ∈ lexerScan instrs lines →
      t.type ≠ TokenType.LABEL) ∧
    lexerScan [] [("loop:".toList)] =
      [⟨TokenType.ERROR, "loop".toList, 1, 1⟩,
       ⟨TokenType.END_OF_LINE, ['\n'], 1, 1⟩] := by
  constructor
  · intro instrs lines t hmem
    rcases scanAux_types instrs lines 1 1 t hmem with heol | ⟨l, -, rq, hrq, hty⟩
    · rw [heol]
      simp
    · obtain ⟨r, q⟩ := rq
      intro hlab
      rw [hty] at hlab
      have hcolon := tokenizeType_label_colon instrs r hlab
      have hword := runsAux_word l 0 none (by intro run p hcontra; cases hcontra)
        r q hrq
      have hmm : ':' ∈ r := List.mem_of_mem_getLast? hcolon
      have := List.all_eq_true.mp hword.2 ':' hmm
      exact absurd this (by decide)
  · decide

theorem label_unreachable_witness :
    (Token.mk TokenType.ERROR ("loop".toList) 1 1).type ≠ TokenType.LABEL :=
  label_unreachable.1 [] [("loop:".toList)]
    ⟨TokenType.ERROR, "loop".toList, 1, 1⟩ (by decide)

/-- C6: each source line contributes its real tokens followed by exactly one
EndOfLine token, whose column is the column state inherited from the last
token scanned on that line (the incoming value when the line has none); the
whole stream is the per-line outputs in order, each line entered with the
column state reset to 1. -/
theorem eol_per_line :
    ∀ (instrs lines : List (List Char)) (lineNo col : Nat) (l : List Char),
    lexerScan instrs lines = (List.range lines.length).flatMap
      (fun j => lineOutput instrs (j + 1) 1 (lines.getD j [])) ∧
    ∃ ts c2, lineOutput instrs lineNo col l =
        ts ++ [⟨TokenType.END_OF_LINE, ['\n'], lineNo, c2⟩] ∧
      ts.all (fun t => !(t.type == TokenType.END_OF_LINE)) = true ∧
      c2 = (((extractRuns l).getLast?).map Prod.snd).getD col ∧
      (lineOutput instrs lineNo col l).countP
        (fun t => t.type == TokenType.END_OF_LINE) = 1 := by
  intro instrs lines lineNo col l
  refine ⟨lexerScan_decompose instrs lines, ?_⟩
  refine ⟨(lineTokens instrs lineNo (extractRuns l) col).1,
    (lineTokens instrs lineNo (extractRuns l) col).2, ?_, ?_, ?_, ?_⟩
  · rfl
  · rw [lineTokens_fst]
    refine List.all_eq_true.mpr ?_
    intro t ht
    rcases List.mem_map.mp ht with ⟨rq, -, heq⟩
    rw [← heq]
    simp [tokenize, tokenizeType_ne_eol instrs rq.1]
  · exact lineTokens_snd instrs lineNo (extractRuns l) col
  · show ((lineTokens instrs lineNo (extractRuns l) col).1 ++
      [(⟨TokenType.END_OF_LINE, ['\n'], lineNo,
        (lineTokens instrs lineNo (extractRuns l) col).2⟩ : Token)]).countP
      (fun t => t.type == TokenType.END_OF_LINE) = 1
    rw [List.countP_append]
    have hz : (lineTokens instrs lineNo (extractRuns l) col).1.countP
        (fun t => t.type == TokenType.END_OF_LINE) = 0 := by
      refine List.countP_eq_zero.mpr ?_
      intro t ht
      rw [lineTokens_fst] at ht
      rcases List.mem_map.mp ht with ⟨rq, -, heq⟩
      rw [← heq]
      simp [tokenize, tokenizeType_ne_eol instrs rq.1]
    rw [hz]
    simp [List.countP_cons]

/-- C7: per line, the tokens other than the EndOfLine are in bijection with
the maximal word-character runs, every token carries its 1-based line number,
and every run token's column is the 1-based offset of the first character of a
maximal run of the line. -/
theorem run_count_positions :
    ∀ (instrs lines : List (List Char)) (lineNo col : Nat) (l : List Char),
    lexerScan instrs lines = (List.range lines.length).flatMap
      (fun j => lineOutput instrs (j + 1) 1 (lines.getD j [])) ∧
    (lineTokens instrs lineNo (extractRuns l) col).1.length = countMaximalRuns l ∧
    (lineTokens instrs lineNo (extractRuns l) col).1 =
      (extractRuns l).map (fun rq => tokenize instrs rq.1 lineNo rq.2) ∧
    (lineOutput instrs lineNo col l).all (fun t => t.line == lineNo) = true ∧
    (extractRuns l).all (fun rq => decide (1 ≤ rq.2) &&
      ((l.drop (rq.2 - 1)).takeWhile isWordChar == rq.1) &&
      ((rq.2 == 1) || !(isWordChar (l.getD (rq.2 - 2) ' ')))) = true := by
  intro instrs lines lineNo col l
  refine ⟨lexerScan_decompose instrs lines, ?_, lineTokens_fst instrs lineNo
    (extractRuns l) col, ?_, ?_⟩
  · rw [lineTokens_fst, List.length_map, extractRuns_length]
  · refine List.all_eq_true.mpr ?_
    intro t ht
    simp only [lineOutput] at ht
    rcases List.mem_append.mp ht with h1 | h2
    · rw [lineTokens_fst] at h1
      rcases List.mem_map.mp h1 with ⟨rq, -, heq⟩
      rw [← heq]
      simp [tokenize]
    · rw [List.mem_singleton.mp h2]
      simp
  · refine List.all_eq_true.mpr ?_
    intro rq hrq
    obtain ⟨r, q⟩ := rq
    have hpos := runsAux_pos l l 0 none (by simp) (Or.inl rfl) r q hrq
    obtain ⟨h1, h2, h3⟩ := hpos
    simp only [Bool.and_eq_true, decide_eq_true_eq, beq_iff_eq, Bool.or_eq_true,
      Bool.not_eq_true]
    refine ⟨⟨h1, h2⟩, ?_⟩
    rcases h3 with h3 | h3
    · exact Or.inl (by simpa using h3)
    · exact Or.inr (by simpa using h3)

/-- C10: a line with no word-character runs produces only its EndOfLine token,
and that token's column is 1, because the scanner's column state starts at 1
and is reset to 1 after every line, so every line is entered at column 1. -/
theorem empty_line_eol_column :
    ∀ (instrs lines : List (List Char)) (i : Nat) (h : i < lines.length),
    extractRuns (lines.get ⟨i, h⟩) = [] →
    lineOutput instrs (i + 1) 1 (lines.get ⟨i, h⟩) =
      [⟨TokenType.END_OF_LINE, ['\n'], i + 1, 1⟩] ∧
    lexerScan instrs lines = (List.range lines.length).flatMap
      (fun j => lineOutput instrs (j + 1) 1 (lines.getD j [])) := by
  intro instrs lines i h hruns
  refine ⟨?_, lexerScan_decompose instrs lines⟩
  simp only [lineOutput, hruns]
  rfl

theorem empty_line_eol_column_witness :
    lineOutput [] 1 1 (([[]] : List (List Char)).get ⟨0, by decide⟩) =
      [⟨TokenType.END_OF_LINE, ['\n'], 1, 1⟩] :=
  (empty_line_eol_column [] [[]] 0 (by decide) (by decide)).1
